import Mathlib

/-!
Verification of the gh-autoprofile core against its specification.

The development shallowly embeds the relevant Go functions
(`WriteEnvrc`, `RemoveEnvrc`, `shellQuote` from internal/direnv/direnv.go,
`FindPin`, `AddPin` from internal/config/pins.go) and the bash prompt hook
(`_gh_autoprofile_hook` and its `gh`/`git` wrapper functions) as pure
functions on `List Char` / explicit state, and proves or refutes the
specification's claims about them.
-/

set_option linter.unusedSectionVars false
set_option linter.unusedVariables false
set_option maxRecDepth 100000
set_option linter.unnecessarySimpa false

namespace Autoprofile

/-! ## Generic first-occurrence infrastructure

`strIndex pat s` models Go's `strings.Index(s, pat)`: the index of the
first occurrence of `pat` as a contiguous substring of `s`, or `none`.
`occAt pat s j` says `pat` occurs in `s` at position `j`.
-/

variable {α : Type} [DecidableEq α]

/-- `pat` occurs as a contiguous substring of `s` starting at index `j`. -/
def occAt (pat s : List α) (j : Nat) : Prop := pat <+: s.drop j

instance (pat s : List α) (j : Nat) : Decidable (occAt pat s j) := by
  unfold occAt; infer_instance

/-- Go `strings.Index`: index of the first occurrence of `pat` in `s`. -/
def strIndex (pat : List α) : List α → Option Nat
  | [] => if pat <+: ([] : List α) then some 0 else none
  | a :: s => if pat <+: (a :: s) then some 0 else (strIndex pat s).map (· + 1)

theorem occAt_succ_cons (pat : List α) (a : α) (s : List α) (j : Nat) :
    occAt pat (a :: s) (j + 1) ↔ occAt pat s j := by
  simp [occAt]

/-- Characterization: `strIndex` returns exactly the least occurrence index. -/
theorem strIndex_eq_some_iff (pat s : List α) (i : Nat) :
    strIndex pat s = some i ↔ occAt pat s i ∧ ∀ j, j < i → ¬ occAt pat s j := by
  induction s generalizing i with
  | nil =>
    by_cases h : pat <+: ([] : List α)
    · simp only [strIndex, if_pos h]
      constructor
      · intro hi
        have hi0 : (0 : Nat) = i := by simpa using hi
        subst hi0
        exact ⟨by simpa [occAt] using h, by omega⟩
      · rintro ⟨hocc, hmin⟩
        have hi0 : i = 0 := by
          by_contra hne
          exact hmin 0 (Nat.pos_of_ne_zero hne) (by simpa [occAt] using h)
        simp [hi0]
    · simp only [strIndex, if_neg h]
      constructor
      · intro hi; cases hi
      · rintro ⟨hocc, -⟩
        exact absurd (by simpa [occAt] using hocc) h
  | cons a s ih =>
    by_cases h : pat <+: (a :: s)
    · simp only [strIndex, if_pos h]
      constructor
      · intro hi
        have hi0 : (0 : Nat) = i := by simpa using hi
        subst hi0
        exact ⟨by simpa [occAt] using h, by omega⟩
      · rintro ⟨hocc, hmin⟩
        have hi0 : i = 0 := by
          by_contra hne
          exact hmin 0 (Nat.pos_of_ne_zero hne) (by simpa [occAt] using h)
        simp [hi0]
    · simp only [strIndex, if_neg h]
      constructor
      · intro hi
        rcases Option.map_eq_some'.mp hi with ⟨k, hk, hki⟩
        rcases (ih k).mp hk with ⟨hocc, hmin⟩
        subst hki
        refine ⟨(occAt_succ_cons pat a s k).mpr hocc, ?_⟩
        intro j hj
        cases j with
        | zero => simpa [occAt] using h
        | succ j' =>
          intro hoc
          exact hmin j' (by omega) ((occAt_succ_cons pat a s j').mp hoc)
      · rintro ⟨hocc, hmin⟩
        cases i with
        | zero => exact absurd (by simpa [occAt] using hocc) h
        | succ i' =>
          have hs : strIndex pat s = some i' := (ih i').mpr
            ⟨(occAt_succ_cons pat a s i').mp hocc,
             fun j hj hoc => hmin (j + 1) (by omega) ((occAt_succ_cons pat a s j).mpr hoc)⟩
          simp [hs]

theorem strIndex_eq_none_iff (pat s : List α) :
    strIndex pat s = none ↔ ∀ j, ¬ occAt pat s j := by
  constructor
  · intro hn j hocc
    have hex : ∃ k, occAt pat s k := ⟨j, hocc⟩
    have hfind := Nat.find_spec hex
    have hmin : ∀ k, k < Nat.find hex → ¬ occAt pat s k :=
      fun k hk => Nat.find_min hex hk
    have : strIndex pat s = some (Nat.find hex) :=
      (strIndex_eq_some_iff pat s (Nat.find hex)).mpr ⟨hfind, hmin⟩
    rw [hn] at this
    cases this
  · intro hno
    cases hidx : strIndex pat s with
    | none => rfl
    | some i =>
      exact absurd ((strIndex_eq_some_iff pat s i).mp hidx).1 (hno i)

/-- An occurrence of a nonempty pattern fits inside the string. -/
theorem occAt_fits {pat s : List α} {j : Nat} (hpat : pat ≠ [])
    (h : occAt pat s j) : j + pat.length ≤ s.length := by
  unfold occAt at h
  have hle : pat.length ≤ (s.drop j).length := h.length_le
  rw [List.length_drop] at hle
  have hpl : 0 < pat.length := List.length_pos.mpr hpat
  omega

theorem occAt_mono_append {pat a : List α} (b : List α) {j : Nat}
    (h : occAt pat a j) : occAt pat (a ++ b) j := by
  unfold occAt at h ⊢
  rw [List.drop_append_eq_append_drop]
  exact h.trans (List.prefix_append _ _)

/-- A prefix no longer than the left part of an append is a prefix of that part. -/
theorem pre_of_pre_append {pat x y : List α} (h : pat <+: x ++ y)
    (hlen : pat.length ≤ x.length) : pat <+: x := by
  rw [List.prefix_iff_eq_take] at h ⊢
  rw [List.take_append_eq_append_take] at h
  have h0 : pat.length - x.length = 0 := by omega
  rw [h0, List.take_zero, List.append_nil] at h
  exact h

theorem occAt_append_inner {pat a : List α} (b : List α) {j : Nat}
    (hfit : j + pat.length ≤ a.length) :
    occAt pat (a ++ b) j ↔ occAt pat a j := by
  constructor
  · intro h
    unfold occAt at h ⊢
    rw [List.drop_append_eq_append_drop] at h
    have hd : b.drop (j - a.length) = b := by
      have : j - a.length = 0 := by omega
      rw [this, List.drop_zero]
    rw [hd] at h
    exact pre_of_pre_append h (by rw [List.length_drop]; omega)
  · exact occAt_mono_append b

theorem occAt_append_right {pat a b : List α} {j : Nat} (hj : a.length ≤ j) :
    occAt pat (a ++ b) j ↔ occAt pat b (j - a.length) := by
  unfold occAt
  rw [List.drop_append_eq_append_drop]
  have : a.drop j = [] := List.drop_eq_nil_of_le hj
  rw [this, List.nil_append]

/-- Decompose an occurrence spanning the junction of an append. -/
theorem occAt_span {pat a b : List α} {j : Nat}
    (hja : j < a.length) (hjb : a.length < j + pat.length)
    (h : occAt pat (a ++ b) j) :
    a.drop j = pat.take (a.length - j) ∧ pat.drop (a.length - j) <+: b := by
  unfold occAt at h
  rw [List.drop_append_eq_append_drop] at h
  have hd : b.drop (j - a.length) = b := by
    have : j - a.length = 0 := by omega
    rw [this, List.drop_zero]
  rw [hd] at h
  have hxlen : (a.drop j).length = a.length - j := by rw [List.length_drop]
  have htake := List.prefix_iff_eq_take.mp h
  rw [List.take_append_eq_append_take, hxlen] at htake
  have hx : (a.drop j).take pat.length = a.drop j := by
    rw [List.take_of_length_le]
    rw [hxlen]; omega
  rw [hx] at htake
  constructor
  · have := congrArg (List.take (a.length - j)) htake
    rw [List.take_append_eq_append_take, hxlen] at this
    have h1 : (a.drop j).take (a.length - j) = a.drop j := by
      rw [List.take_of_length_le]; rw [hxlen]
    have h2 : a.length - j - (a.length - j) = 0 := by omega
    rw [h1, h2, List.take_zero, List.append_nil] at this
    exact this.symm
  · have := congrArg (List.drop (a.length - j)) htake
    rw [List.drop_append_eq_append_drop, hxlen] at this
    have h1 : (a.drop j).drop (a.length - j) = [] :=
      List.drop_eq_nil_of_le (by rw [hxlen])
    have h2 : a.length - j - (a.length - j) = 0 := by omega
    rw [h1, h2, List.drop_zero, List.nil_append] at this
    rw [this]
    exact List.take_prefix _ _

/-- Case split for an occurrence within an appended string. -/
theorem occAt_append_cases {pat a b : List α} {j : Nat} (hpat : pat ≠ [])
    (h : occAt pat (a ++ b) j) :
    (j + pat.length ≤ a.length ∧ occAt pat a j) ∨
    (a.length ≤ j ∧ occAt pat b (j - a.length)) ∨
    (j < a.length ∧ a.length < j + pat.length ∧
      a.drop j = pat.take (a.length - j) ∧ pat.drop (a.length - j) <+: b) := by
  by_cases h1 : j + pat.length ≤ a.length
  · exact Or.inl ⟨h1, (occAt_append_inner b h1).mp h⟩
  · by_cases h2 : a.length ≤ j
    · exact Or.inr (Or.inl ⟨h2, (occAt_append_right h2).mp h⟩)
    · have hja : j < a.length := by omega
      have hjb : a.length < j + pat.length := by omega
      exact Or.inr (Or.inr ⟨hja, hjb, occAt_span hja hjb h⟩)

theorem strIndex_nil_pat (s : List α) : strIndex ([] : List α) s = some 0 := by
  cases s <;> simp [strIndex]

theorem strIndex_append_of_left {pat a : List α} (b : List α) {i : Nat}
    (h : strIndex pat a = some i) : strIndex pat (a ++ b) = some i := by
  rcases (strIndex_eq_some_iff pat a i).mp h with ⟨hocc, hmin⟩
  by_cases hpat : pat = []
  · subst hpat
    rw [strIndex_nil_pat] at h ⊢
    exact h
  · have hfit : i + pat.length ≤ a.length := occAt_fits hpat hocc
    apply (strIndex_eq_some_iff pat (a ++ b) i).mpr
    refine ⟨occAt_mono_append b hocc, ?_⟩
    intro j hj hoc
    rcases occAt_append_cases hpat hoc with ⟨_, hin⟩ | ⟨hge, _⟩ | ⟨hja, hjb, _, _⟩
    · exact hmin j hj hin
    · have : pat.length ≠ 0 := fun h0 => hpat (List.eq_nil_of_length_eq_zero h0)
      omega
    · omega

/-- First occurrence in an append when none lies in the left part and no
occurrence spans the junction. -/
theorem strIndex_append_split {pat a b : List α} (hpat : pat ≠ [])
    (ha : strIndex pat a = none)
    (hspan : ∀ k, 0 < k → k < pat.length →
      ¬ (a.drop (a.length - k) = pat.take k ∧ pat.drop k <+: b)) :
    strIndex pat (a ++ b) = (strIndex pat b).map (· + a.length) := by
  have hnone := (strIndex_eq_none_iff pat a).mp ha
  have hplen : pat.length ≠ 0 := fun h0 => hpat (List.eq_nil_of_length_eq_zero h0)
  have hspan' : ∀ j, j < a.length → a.length < j + pat.length →
      ¬ occAt pat (a ++ b) j := by
    intro j hja hjb hoc
    have hsp := occAt_span hja hjb hoc
    have h1 : a.length - (a.length - j) = j := by omega
    apply hspan (a.length - j) (by omega) (by omega)
    rw [h1]
    exact hsp
  cases hb : strIndex pat b with
  | none =>
    have hbnone := (strIndex_eq_none_iff pat b).mp hb
    simp only [Option.map_none']
    apply (strIndex_eq_none_iff pat (a ++ b)).mpr
    intro j hoc
    rcases occAt_append_cases hpat hoc with ⟨_, hin⟩ | ⟨hge, hin⟩ | ⟨hja, hjb, _⟩
    · exact hnone j hin
    · exact hbnone _ hin
    · exact hspan' j hja hjb hoc
  | some m =>
    rcases (strIndex_eq_some_iff pat b m).mp hb with ⟨hocc, hmin⟩
    simp only [Option.map_some']
    apply (strIndex_eq_some_iff pat (a ++ b) (m + a.length)).mpr
    constructor
    · apply (occAt_append_right (by omega)).mpr
      have : m + a.length - a.length = m := by omega
      rw [this]
      exact hocc
    · intro j hj hoc
      rcases occAt_append_cases hpat hoc with ⟨_, hin⟩ | ⟨hge, hin⟩ | ⟨hja, hjb, _⟩
      · exact hnone j hin
      · exact hmin (j - a.length) (by omega) hin
      · exact hspan' j hja hjb hoc

theorem strIndex_zero_of_pre {pat s : List α} (h : pat <+: s) :
    strIndex pat s = some 0 := by
  apply (strIndex_eq_some_iff pat s 0).mpr
  exact ⟨by simpa [occAt] using h, by omega⟩

/-- Head of a nonempty prefix agrees with the head of the string. -/
theorem head_of_pre {x y : List α} (h : x <+: y) (hx : x ≠ []) :
    y.head? = x.head? := by
  rcases h with ⟨t, rfl⟩
  cases x with
  | nil => exact absurd rfl hx
  | cons a x' => rfl

theorem head_drop (s : List α) (n : Nat) : (s.drop n).head? = s[n]? := by
  induction s generalizing n with
  | nil => simp
  | cons a s ih =>
    cases n with
    | zero => simp
    | succ n' => simpa using ih n'

/-- Kill a spanning occurrence: if `b` starts with a symbol that occurs in
`pat` only at position 0, no proper tail of `pat` is a prefix of `b`. -/
theorem span_kill_head {pat b : List α} {h0 : α} (hb : b.head? = some h0)
    (hpat : ∀ k, k < pat.length → 0 < k → pat[k]? ≠ some h0) :
    ∀ k, 0 < k → k < pat.length → ¬ (pat.drop k <+: b) := by
  intro k hk0 hk hpre
  have hne : pat.drop k ≠ [] := by
    intro hnil
    have := congrArg List.length hnil
    rw [List.length_drop] at this
    simp at this
    omega
  have hh := head_of_pre hpre hne
  rw [head_drop] at hh
  exact hpat k hk hk0 (by rw [← hh]; exact hb)

/-! ## The managed-block merger (internal/direnv/direnv.go)

File contents are `List Char`; a whole file state is `Option (List Char)`
with `none` for a missing file.
-/

/-- `markerStart` from direnv.go. -/
def markerStart : List Char := "# gh-autoprofile:start".toList

/-- `markerEnd` from direnv.go. -/
def markerEnd : List Char := "# gh-autoprofile:end".toList

def nlChar : Char := '\n'

/-- The Go code path `if !strings.HasSuffix(content, "\n") { content += "\n" }`. -/
def withTrailingNl (content : List Char) : List Char :=
  if content.getLast? = some nlChar then content else content ++ [nlChar]

/-- The content transformation performed by `WriteEnvrc`
(direnv.go lines 477–508): `block` is the rendered managed block,
`content` the existing file content (empty for a missing file). -/
def upsertContent (block content : List Char) : List Char :=
  if content = [] then block
  else
    match strIndex markerStart content with
    | none => withTrailingNl content ++ block
    | some startIdx =>
      match strIndex markerEnd content with
      | none => withTrailingNl content ++ block
      | some e =>
        let e1 := e + markerEnd.length
        let endIdx := if content[e1]? = some nlChar then e1 + 1 else e1
        content.take startIdx ++ block ++ content.drop endIdx

/-- `unicode.IsSpace` as used by Go's `strings.TrimSpace`. -/
def goIsSpace (c : Char) : Bool :=
  c == ' ' || c == '\t' || c == '\n' || c == '\x0b' || c == '\x0c' || c == '\r' ||
  c == '\x85' || c == '\xa0' || c == '\u1680' ||
  (decide ('\u2000' ≤ c) && decide (c ≤ '\u200a')) ||
  c == '\u2028' || c == '\u2029' || c == '\u202f' || c == '\u205f' || c == '\u3000'

/-- Go `strings.TrimSpace`. -/
def trimSpace (s : List Char) : List Char :=
  ((s.dropWhile goIsSpace).reverse.dropWhile goIsSpace).reverse

/-- `RemoveEnvrc` (direnv.go lines 521–559) as a file-state transformation:
`none` is a missing file (input: nonexistent; output: deleted). -/
def removeEnvrcFile : Option (List Char) → Option (List Char)
  | none => none
  | some content =>
    match strIndex markerStart content with
    | none => some content
    | some startIdx =>
      match strIndex markerEnd content with
      | none => some content
      | some e =>
        let e1 := e + markerEnd.length
        let endIdx := if content[e1]? = some nlChar then e1 + 1 else e1
        let rem := trimSpace (content.take startIdx ++ content.drop endIdx)
        if rem = [] then none else some (rem ++ [nlChar])

/-! ## Pins and the activation descriptor (internal/config/pins.go, direnv.go) -/

/-- `config.Pin`. All fields are strings in the source; empty string means
the optional field is unset. -/
structure Pin where
  user : List Char
  dir : List Char
  mode : List Char
  gitEmail : List Char
  gitName : List Char
  sshKey : List Char
deriving DecidableEq, Repr

def ModeWrapper : List Char := "wrapper".toList

def ModeExport : List Char := "export".toList

/-- `Pin.EffectiveMode`: defaults to wrapper when unset. -/
def Pin.effectiveMode (p : Pin) : List Char :=
  if p.mode = [] then ModeWrapper else p.mode

/-- The always-unquoted-safe character test from `shellQuote` (direnv.go 579–585). -/
def isSafeChar (c : Char) : Bool :=
  (decide ('a' ≤ c) && decide (c ≤ 'z')) ||
  (decide ('A' ≤ c) && decide (c ≤ 'Z')) ||
  (decide ('0' ≤ c) && decide (c ≤ '9')) ||
  c == '-' || c == '.' || c == '_' || c == '/' || c == '@' || c == '+' || c == ':'

/-- `strings.ReplaceAll(s, "'", "'\\''")`: each single quote becomes the
four characters quote, backslash, quote, quote. -/
def sqEscape : List Char → List Char
  | [] => []
  | c :: rest => (if c = '\'' then ['\'', '\\', '\'', '\''] else [c]) ++ sqEscape rest

/-- `shellQuote` (direnv.go lines 575–592). -/
def shellQuote (s : List Char) : List Char :=
  if s.all isSafeChar ∧ s ≠ [] then s
  else ['\''] ++ sqEscape s ++ ['\'']

/-- The positional argument list built by `WriteEnvrc` (lines 452–463). -/
def argsOf (pin : Pin) : List (List Char) :=
  [shellQuote pin.user] ++
    (if pin.gitEmail ≠ [] then
      [shellQuote pin.gitEmail] ++
        (if pin.gitName ≠ [] then
          [shellQuote pin.gitName] ++
            (if pin.sshKey ≠ [] then [shellQuote pin.sshKey] else [])
         else [])
     else [])

/-- Entry-point selection by mode (direnv.go lines 447–450). -/
def fnNameOf (pin : Pin) : List Char :=
  if pin.effectiveMode = ModeExport then "use_gh_autoprofile_export".toList
  else "use_gh_autoprofile".toList

/-- The single command line inside the managed block. -/
def lineOf (pin : Pin) : List Char :=
  fnNameOf pin ++ [' '] ++ List.intercalate [' '] (argsOf pin)

/-- The managed block rendered by `WriteEnvrc` (lines 465–469). -/
def blockOf (pin : Pin) : List Char :=
  markerStart ++ [nlChar] ++ lineOf pin ++ [nlChar] ++ markerEnd ++ [nlChar]

/-- File-level `WriteEnvrc`: a missing file reads as empty content and the
result is always written back. -/
def writeEnvrcFile (pin : Pin) (file : Option (List Char)) : Option (List Char) :=
  some (upsertContent (blockOf pin) (file.getD []))

/-- The pin used throughout the repository's own tests. -/
def pinAlice : Pin := ⟨"alice".toList, "/work".toList, [], [], [], []⟩

/-- A pin whose account name contains the literal end marker, so its
rendered block holds an end-marker occurrence before the closing line. -/
def pinEvil : Pin :=
  ⟨"a # gh-autoprofile:end".toList, "/w".toList, [], [], [], []⟩

def pinBob : Pin := ⟨"bob".toList, "/work".toList, [], "bob@test.com".toList, [], []⟩

/-- Sanity check mirroring `TestWriteEnvrc_NewFile`. -/
example : upsertContent (blockOf pinAlice) [] =
    "# gh-autoprofile:start\nuse_gh_autoprofile alice\n# gh-autoprofile:end\n".toList := by
  decide

/-- Sanity check mirroring `TestWriteEnvrc_PreservesExistingContent`. -/
example : upsertContent (blockOf pinAlice) "export MY_VAR=hello\n".toList =
    ("export MY_VAR=hello\n" ++
     "# gh-autoprofile:start\nuse_gh_autoprofile alice\n# gh-autoprofile:end\n").toList := by
  decide

/-- Sanity check mirroring `TestRemoveEnvrc_DeletesEmptyFile`. -/
example : removeEnvrcFile (writeEnvrcFile pinAlice none) = none := by decide

/-- Sanity check mirroring `TestRemoveEnvrc_PreservesOtherContent`. -/
example : removeEnvrcFile
    (writeEnvrcFile pinAlice (some "export MY_VAR=hello\n".toList)) =
    some "export MY_VAR=hello\n".toList := by decide

/-! ## Marker and block facts -/

theorem markerStart_ne_nil : markerStart ≠ [] := by decide

theorem markerEnd_ne_nil : markerEnd ≠ [] := by decide

theorem markerStart_hash : ∀ k, k < markerStart.length → 0 < k →
    markerStart[k]? ≠ some '#' := by decide

theorem markerEnd_hash : ∀ k, k < markerEnd.length → 0 < k →
    markerEnd[k]? ≠ some '#' := by decide

theorem markerStart_no_nl : ∀ k, k < markerStart.length →
    markerStart[k]? ≠ some nlChar := by decide

theorem markerEnd_no_nl : ∀ k, k < markerEnd.length →
    markerEnd[k]? ≠ some nlChar := by decide

theorem blockOf_concat (pin : Pin) :
    blockOf pin =
      (markerStart ++ [nlChar] ++ lineOf pin ++ [nlChar] ++ markerEnd) ++ [nlChar] := rfl

theorem blockOf_ne_nil (pin : Pin) : blockOf pin ≠ [] := by
  rw [blockOf_concat]; simp

theorem mS_pre_blockOf (pin : Pin) : markerStart <+: blockOf pin :=
  ⟨[nlChar] ++ lineOf pin ++ [nlChar] ++ markerEnd ++ [nlChar], by simp [blockOf]⟩

theorem head_blockOf (pin : Pin) : (blockOf pin).head? = some '#' := by
  have h := head_of_pre (mS_pre_blockOf pin) markerStart_ne_nil
  rw [h]; decide

theorem length_blockOf (pin : Pin) :
    (blockOf pin).length = (lineOf pin).length + 45 := by
  simp [blockOf, markerStart, markerEnd]

theorem getElem_concat_last (y : List α) (a : α) :
    (y ++ [a])[(y ++ [a]).length - 1]? = some a := by
  have hlen : (y ++ [a]).length - 1 = y.length := by simp
  rw [hlen, List.getElem?_append_right (le_refl _)]
  simp

theorem getElem_last_blockOf (pin : Pin) :
    (blockOf pin)[(blockOf pin).length - 1]? = some nlChar := by
  rw [blockOf_concat]
  exact getElem_concat_last _ _

/-- The block's first end-marker occurrence is its closing line. True of
every pin whose rendered argument line does not itself contain the end
marker; taken as a hypothesis and discharged by `decide` on concrete pins. -/
def endCleanB (B : List Char) : Prop :=
  strIndex markerEnd B = some (B.length - (markerEnd.length + 1))

instance (B : List Char) : Decidable (endCleanB B) := by
  unfold endCleanB; infer_instance

/-- The block contains the start marker only at position 0. -/
def startCleanB (B : List Char) : Prop :=
  ∀ j, j < B.length → occAt markerStart B j → j = 0

instance (B : List Char) : Decidable (startCleanB B) := by
  unfold startCleanB; infer_instance

/-! ## Shape lemmas for `upsertContent` -/

theorem strIndex_nil {pat : List α} (hpat : pat ≠ []) :
    strIndex pat ([] : List α) = none := by
  simp only [strIndex]
  rw [if_neg]
  intro h
  exact hpat (List.prefix_nil.mp h)

theorem head_append_left {x : List α} (y : List α) (hx : x ≠ []) :
    (x ++ y).head? = x.head? := by
  cases x with
  | nil => exact absurd rfl hx
  | cons a x' => rfl

theorem upsertContent_append_fresh {B c : List Char} (hc : c ≠ [])
    (hs : strIndex markerStart c = none) :
    upsertContent B c = withTrailingNl c ++ B := by
  unfold upsertContent
  rw [if_neg hc, hs]

theorem upsertContent_malformed {B c : List Char} {s : Nat} (hc : c ≠ [])
    (hs : strIndex markerStart c = some s) (he : strIndex markerEnd c = none) :
    upsertContent B c = withTrailingNl c ++ B := by
  unfold upsertContent
  rw [if_neg hc, hs, he]

theorem upsertContent_replace {B cnt : List Char} {s e : Nat} (hc : cnt ≠ [])
    (hs : strIndex markerStart cnt = some s) (he : strIndex markerEnd cnt = some e) :
    upsertContent B cnt =
      cnt.take s ++ B ++ cnt.drop (if cnt[e + markerEnd.length]? = some nlChar
        then e + markerEnd.length + 1 else e + markerEnd.length) := by
  unfold upsertContent
  rw [if_neg hc, hs, he]

theorem strIndex_take_none {pat c : List α} {i m : Nat} (hpat : pat ≠ [])
    (h : strIndex pat c = some i) (hm : m ≤ i) :
    strIndex pat (c.take m) = none := by
  rcases (strIndex_eq_some_iff pat c i).mp h with ⟨hocc, hmin⟩
  apply (strIndex_eq_none_iff _ _).mpr
  intro j hoc
  have hfit : j + pat.length ≤ (c.take m).length := occAt_fits hpat hoc
  have hmlen : (c.take m).length = min m c.length := List.length_take m c
  have hcj : occAt pat c j := by
    have h2 := (occAt_append_inner (c.drop m) hfit).mpr hoc
    rwa [List.take_append_drop] at h2
  have hpl : 0 < pat.length := List.length_pos.mpr hpat
  exact hmin j (by omega) hcj

theorem strIndex_single_nl {pat : List Char} (hpat : pat ≠ [])
    (hnl : ∀ k, k < pat.length → pat[k]? ≠ some nlChar) :
    strIndex pat [nlChar] = none := by
  apply (strIndex_eq_none_iff _ _).mpr
  intro j hocc
  have hfit := occAt_fits hpat hocc
  have hpl : 0 < pat.length := List.length_pos.mpr hpat
  have hj : j = 0 := by simp at hfit; omega
  subst hj
  unfold occAt at hocc
  rw [List.drop_zero] at hocc
  have hhd := head_of_pre hocc hpat
  have h00 := head_drop pat 0
  rw [List.drop_zero] at h00
  exact hnl 0 (by omega) (by rw [← h00, ← hhd]; rfl)

/-- Appending the separating newline creates no new marker occurrence. -/
theorem strIndex_withTrailingNl {pat c : List Char} (hpat : pat ≠ [])
    (hnl : ∀ k, k < pat.length → pat[k]? ≠ some nlChar)
    (h : strIndex pat c = none) :
    strIndex pat (withTrailingNl c) = none := by
  unfold withTrailingNl
  split
  · exact h
  · have hb : ([nlChar] : List Char).head? = some nlChar := rfl
    rw [strIndex_append_split hpat h
      (fun k hk0 hk hand =>
        span_kill_head hb (fun k' hk' hk0' => hnl k' hk') k hk0 hk hand.2)]
    rw [strIndex_single_nl hpat hnl]
    rfl

/-- Upserting a block `B2` into content of the shape `A ++ (block ++ T)`,
where the pin's block is clean and `A` holds no marker, replaces exactly
the block span. -/
theorem upsert_on_managed (pin : Pin) (B2 A T : List Char)
    (hAs : strIndex markerStart A = none)
    (hAe : strIndex markerEnd A = none)
    (hcln : endCleanB (blockOf pin)) :
    upsertContent B2 (A ++ (blockOf pin ++ T)) = A ++ (B2 ++ T) := by
  have hBne := blockOf_ne_nil pin
  have hBlen := length_blockOf pin
  have hhead : (blockOf pin ++ T).head? = some '#' := by
    rw [head_append_left T hBne, head_blockOf]
  have hc : A ++ (blockOf pin ++ T) ≠ [] := by
    simp [hBne]
  have hS : strIndex markerStart (A ++ (blockOf pin ++ T)) = some A.length := by
    rw [strIndex_append_split markerStart_ne_nil hAs
      (fun k hk0 hk hand =>
        span_kill_head hhead markerStart_hash k hk0 hk hand.2)]
    rw [strIndex_zero_of_pre ((mS_pre_blockOf pin).trans (List.prefix_append _ _))]
    simp
  have hEBT : strIndex markerEnd (blockOf pin ++ T) =
      some ((blockOf pin).length - (markerEnd.length + 1)) :=
    strIndex_append_of_left T hcln
  have hE : strIndex markerEnd (A ++ (blockOf pin ++ T)) =
      some ((blockOf pin).length - (markerEnd.length + 1) + A.length) := by
    rw [strIndex_append_split markerEnd_ne_nil hAe
      (fun k hk0 hk hand =>
        span_kill_head hhead markerEnd_hash k hk0 hk hand.2)]
    rw [hEBT]
    rfl
  rw [upsertContent_replace hc hS hE]
  have hme : markerEnd.length = 20 := by decide
  have he1 : (blockOf pin).length - (markerEnd.length + 1) + A.length + markerEnd.length =
      A.length + ((blockOf pin).length - 1) := by omega
  rw [he1]
  have hgl : (A ++ (blockOf pin ++ T))[A.length + ((blockOf pin).length - 1)]? =
      some nlChar := by
    rw [List.getElem?_append_right (by omega : A.length ≤ A.length + ((blockOf pin).length - 1))]
    have hsub : A.length + ((blockOf pin).length - 1) - A.length =
        (blockOf pin).length - 1 := by omega
    rw [hsub]
    rw [List.getElem?_append,
      if_pos (by omega : (blockOf pin).length - 1 < (blockOf pin).length)]
    exact getElem_last_blockOf pin
  rw [if_pos hgl]
  have he2 : A.length + ((blockOf pin).length - 1) + 1 =
      A.length + (blockOf pin).length := by omega
  rw [he2]
  have htk : (A ++ (blockOf pin ++ T)).take A.length = A := by
    rw [List.take_append_of_le_length (le_refl _), List.take_length]
  have hdp : (A ++ (blockOf pin ++ T)).drop (A.length + (blockOf pin).length) = T := by
    rw [List.drop_append_eq_append_drop]
    rw [List.drop_eq_nil_of_le (by omega : A.length ≤ A.length + (blockOf pin).length)]
    have hsub : A.length + (blockOf pin).length - A.length = (blockOf pin).length := by
      omega
    rw [hsub, List.nil_append, List.drop_append_eq_append_drop,
      List.drop_eq_nil_of_le (le_refl _), Nat.sub_self, List.drop_zero, List.nil_append]
  rw [htk, hdp, List.append_assoc]

/-! ## Claim C1: idempotence of the upsert -/

/-- Content-level idempotence under the amended side conditions. -/
theorem upsert_idem_core (pin : Pin) (content : List Char)
    (hcln : endCleanB (blockOf pin))
    (hc : (strIndex markerStart content = none ∧ strIndex markerEnd content = none) ∨
          (∃ s e, strIndex markerStart content = some s ∧
            strIndex markerEnd content = some e ∧ s < e)) :
    upsertContent (blockOf pin) (upsertContent (blockOf pin) content) =
      upsertContent (blockOf pin) content := by
  rcases hc with ⟨hS, hE⟩ | ⟨s, e, hs, he, hlt⟩
  · by_cases hc0 : content = []
    · subst hc0
      have h1 : upsertContent (blockOf pin) [] = blockOf pin := rfl
      rw [h1]
      have h2 := upsert_on_managed pin (blockOf pin) [] []
        (strIndex_nil markerStart_ne_nil) (strIndex_nil markerEnd_ne_nil) hcln
      simpa using h2
    · rw [upsertContent_append_fresh hc0 hS]
      have hAs := strIndex_withTrailingNl markerStart_ne_nil markerStart_no_nl hS
      have hAe := strIndex_withTrailingNl markerEnd_ne_nil markerEnd_no_nl hE
      have h2 := upsert_on_managed pin (blockOf pin) (withTrailingNl content) []
        hAs hAe hcln
      simpa using h2
  · have hcne : content ≠ [] := by
      intro h0
      rw [h0, strIndex_nil markerStart_ne_nil] at hs
      cases hs
    rw [upsertContent_replace hcne hs he]
    have hAs : strIndex markerStart (content.take s) = none :=
      strIndex_take_none markerStart_ne_nil hs (le_refl s)
    have hAe : strIndex markerEnd (content.take s) = none :=
      strIndex_take_none markerEnd_ne_nil he (le_of_lt hlt)
    have h2 := upsert_on_managed pin (blockOf pin) (content.take s)
      (content.drop (if content[e + markerEnd.length]? = some nlChar
        then e + markerEnd.length + 1 else e + markerEnd.length)) hAs hAe hcln
    simpa [List.append_assoc] using h2

/-- **C1** (amended). `WriteEnvrc` is idempotent for every pin whose rendered
block contains the end marker only as its closing line, on every file whose
content either contains neither marker, or contains both with the first
end-marker occurrence after the first start-marker occurrence. -/
theorem writeEnvrc_idempotent (pin : Pin) (file : Option (List Char))
    (hcln : endCleanB (blockOf pin))
    (hc : (strIndex markerStart (file.getD []) = none ∧
            strIndex markerEnd (file.getD []) = none) ∨
          (∃ s e, strIndex markerStart (file.getD []) = some s ∧
            strIndex markerEnd (file.getD []) = some e ∧ s < e)) :
    writeEnvrcFile pin (writeEnvrcFile pin file) = writeEnvrcFile pin file := by
  unfold writeEnvrcFile
  simp only [Option.getD_some]
  rw [upsert_idem_core pin (file.getD []) hcln hc]

theorem writeEnvrc_idempotent_witness :
    endCleanB (blockOf pinAlice) ∧
    writeEnvrcFile pinAlice (writeEnvrcFile pinAlice (some "export FOO=1\n".toList)) =
      writeEnvrcFile pinAlice (some "export FOO=1\n".toList) :=
  ⟨by decide,
   writeEnvrc_idempotent pinAlice (some "export FOO=1\n".toList) (by decide)
     (Or.inl ⟨by decide, by decide⟩)⟩

/-- **C1** counterexample: on a file whose content is a lone end-marker line,
applying `WriteEnvrc` twice with the same pin differs from applying it once
(the second call duplicates the block); and for a pin whose account name
contains the end marker, `WriteEnvrc` is not idempotent even starting from
a missing file. -/
theorem writeEnvrc_idempotent_cex :
    (writeEnvrcFile pinAlice (writeEnvrcFile pinAlice (some (markerEnd ++ [nlChar]))) ≠
      writeEnvrcFile pinAlice (some (markerEnd ++ [nlChar]))) ∧
    (writeEnvrcFile pinEvil (writeEnvrcFile pinEvil none) ≠
      writeEnvrcFile pinEvil none) := by decide

/-! ## Claim C3: malformed markers -/

/-- **C3** (amended): when the content contains the start marker but the end
marker occurs nowhere in it, `WriteEnvrc` keeps the existing content as an
unchanged prefix (inserting a separating newline only when the content lacks
a trailing one), appends a fresh block at end-of-file, and reports no error.
(As stated, with "no end marker following the start marker", the claim is
false: see the counterexample.) -/
theorem writeEnvrc_malformed_append (pin : Pin) (content : List Char) (s : Nat)
    (hs : strIndex markerStart content = some s)
    (he : strIndex markerEnd content = none) :
    writeEnvrcFile pin (some content) =
      some (withTrailingNl content ++ blockOf pin) := by
  have hcne : content ≠ [] := by
    intro h0
    rw [h0, strIndex_nil markerStart_ne_nil] at hs
    cases hs
  unfold writeEnvrcFile
  simp only [Option.getD_some]
  rw [upsertContent_malformed hcne hs he]

theorem writeEnvrc_malformed_witness :
    strIndex markerStart (markerStart ++ [nlChar]) = some 0 ∧
    strIndex markerEnd (markerStart ++ [nlChar]) = none ∧
    writeEnvrcFile pinAlice (some (markerStart ++ [nlChar])) =
      some (withTrailingNl (markerStart ++ [nlChar]) ++ blockOf pinAlice) :=
  ⟨by decide, by decide,
   writeEnvrc_malformed_append pinAlice (markerStart ++ [nlChar]) 0 (by decide) (by decide)⟩

def cexMalformed : List Char := markerEnd ++ [nlChar] ++ markerStart ++ [nlChar]

/-- **C3** counterexample: `cexMalformed` contains the start marker (at 21)
with no end marker following it, yet `WriteEnvrc` does not leave the content
untouched with a fresh block appended — it takes the replace path because an
end marker occurs before the start marker. -/
theorem writeEnvrc_malformed_cex :
    strIndex markerStart cexMalformed = some 21 ∧
    (∀ j, j < cexMalformed.length → 21 ≤ j → ¬ occAt markerEnd cexMalformed j) ∧
    writeEnvrcFile pinAlice (some cexMalformed) ≠
      some (withTrailingNl cexMalformed ++ blockOf pinAlice) := by decide

/-! ## Claim C2: two sequential upserts leave exactly one managed block -/

theorem occAt_nil {pat : List α} (hpat : pat ≠ []) (j : Nat) :
    ¬ occAt pat ([] : List α) j := by
  intro h
  have hfit := occAt_fits hpat h
  have hpl : 0 < pat.length := List.length_pos.mpr hpat
  rw [List.length_nil] at hfit
  omega

theorem occAt_drop_shift {pat cnt : List α} {m j : Nat}
    (h : occAt pat (cnt.drop m) j) : occAt pat cnt (m + j) := by
  unfold occAt at h ⊢
  have hd : (cnt.drop m).drop j = cnt.drop (m + j) := by
    rw [List.drop_drop, Nat.add_comm]
  rwa [hd] at h

/-- In content of the shape `A ++ (block ++ T)` where neither `A` nor `T`
holds a start-marker occurrence and the block is start-clean, the start
marker occurs exactly once. -/
theorem unique_start_in_managed (pin2 : Pin) (A T : List Char)
    (hA : ∀ j, ¬ occAt markerStart A j)
    (hT : ∀ j, ¬ occAt markerStart T j)
    (hB2 : startCleanB (blockOf pin2)) :
    ∃! j, occAt markerStart (A ++ (blockOf pin2 ++ T)) j := by
  have hBne := blockOf_ne_nil pin2
  have hhead : (blockOf pin2 ++ T).head? = some '#' := by
    rw [head_append_left T hBne, head_blockOf]
  have hmSpos : 0 < markerStart.length := by decide
  refine ⟨A.length, ?_, ?_⟩
  · apply (occAt_append_right (le_refl A.length)).mpr
    rw [Nat.sub_self]
    have : markerStart <+: blockOf pin2 ++ T :=
      (mS_pre_blockOf pin2).trans (List.prefix_append _ _)
    simpa [occAt] using this
  · intro j hj
    rcases occAt_append_cases markerStart_ne_nil hj with
      ⟨hfit, hin⟩ | ⟨hge, hin⟩ | ⟨hja, hjb, hspa, hspb⟩
    · exact absurd hin (hA j)
    · rcases occAt_append_cases markerStart_ne_nil hin with
        ⟨hfit2, hin2⟩ | ⟨hge2, hin2⟩ | ⟨hja2, hjb2, hspa2, hspb2⟩
      · have hlt : j - A.length < (blockOf pin2).length := by omega
        have h0 := hB2 (j - A.length) hlt hin2
        omega
      · exact absurd hin2 (hT _)
      · exfalso
        have hk1 : 0 < (blockOf pin2).length - (j - A.length) := by omega
        have hk2 : (blockOf pin2).length - (j - A.length) ≤ markerStart.length := by
          omega
        have hget := congrArg
          (fun l => l[((blockOf pin2).length - (j - A.length)) - 1]?) hspa2
        simp only at hget
        rw [List.getElem?_drop] at hget
        have hidx : j - A.length + ((blockOf pin2).length - (j - A.length) - 1) =
            (blockOf pin2).length - 1 := by omega
        rw [hidx, getElem_last_blockOf pin2] at hget
        rw [List.getElem?_take,
          if_pos (by omega : (blockOf pin2).length - (j - A.length) - 1 <
            (blockOf pin2).length - (j - A.length))] at hget
        exact markerStart_no_nl _ (by omega) hget.symm
    · exact absurd hspb
        (span_kill_head hhead markerStart_hash (A.length - j)
          (by omega) (by omega))

/-- **C2** (amended). For clean blocks, on content holding either no marker
or a unique start marker followed by the first end marker: after upserting
pin1's block and then pin2's block, the start marker occurs exactly once,
and the final content is the original with pin2's block (only) in place of
the managed span — everything outside the span byte-for-byte unchanged. On
an empty or missing file the result is exactly pin2's block. -/
theorem writeEnvrc_second_body_wins (pin1 pin2 : Pin) (content : List Char)
    (hcln1 : endCleanB (blockOf pin1))
    (hstart2 : startCleanB (blockOf pin2))
    (hc : (strIndex markerStart content = none ∧ strIndex markerEnd content = none) ∨
          (∃ s e, strIndex markerStart content = some s ∧
            strIndex markerEnd content = some e ∧ s < e ∧
            (∀ j, j < content.length → occAt markerStart content j → j = s))) :
    (∃! j, occAt markerStart
        (upsertContent (blockOf pin2) (upsertContent (blockOf pin1) content)) j) ∧
    (content = [] →
        upsertContent (blockOf pin2) (upsertContent (blockOf pin1) content) =
          blockOf pin2) ∧
    (∀ s e, strIndex markerStart content = some s →
        strIndex markerEnd content = some e →
        upsertContent (blockOf pin2) (upsertContent (blockOf pin1) content) =
          content.take s ++ (blockOf pin2 ++ content.drop
            (if content[e + markerEnd.length]? = some nlChar
              then e + markerEnd.length + 1 else e + markerEnd.length))) ∧
    (content ≠ [] → strIndex markerStart content = none →
        upsertContent (blockOf pin2) (upsertContent (blockOf pin1) content) =
          withTrailingNl content ++ blockOf pin2) := by
  rcases hc with ⟨hS, hE⟩ | ⟨s, e, hs, he, hlt, hUq⟩
  · by_cases hc0 : content = []
    · subst hc0
      have h1 : upsertContent (blockOf pin1) [] = blockOf pin1 := rfl
      have h2 : upsertContent (blockOf pin2) (blockOf pin1) = blockOf pin2 := by
        have h := upsert_on_managed pin1 (blockOf pin2) [] []
          (strIndex_nil markerStart_ne_nil) (strIndex_nil markerEnd_ne_nil) hcln1
        simpa using h
      rw [h1, h2]
      refine ⟨?_, fun _ => rfl, ?_, ?_⟩
      · have h := unique_start_in_managed pin2 [] []
          (occAt_nil markerStart_ne_nil) (occAt_nil markerStart_ne_nil) hstart2
        simpa using h
      · intro s e hs
        rw [strIndex_nil markerStart_ne_nil] at hs
        cases hs
      · intro hne
        exact absurd rfl hne
    · have h1 := upsertContent_append_fresh (B := blockOf pin1) hc0 hS
      have hAs := strIndex_withTrailingNl markerStart_ne_nil markerStart_no_nl hS
      have hAe := strIndex_withTrailingNl markerEnd_ne_nil markerEnd_no_nl hE
      have h2 : upsertContent (blockOf pin2) (withTrailingNl content ++ blockOf pin1) =
          withTrailingNl content ++ blockOf pin2 := by
        have h := upsert_on_managed pin1 (blockOf pin2) (withTrailingNl content) []
          hAs hAe hcln1
        simpa using h
      rw [h1, h2]
      refine ⟨?_, fun h0 => absurd h0 hc0, ?_, fun _ _ => rfl⟩
      · have h := unique_start_in_managed pin2 (withTrailingNl content) []
          ((strIndex_eq_none_iff _ _).mp hAs) (occAt_nil markerStart_ne_nil) hstart2
        simpa using h
      · intro s e hs'
        rw [hS] at hs'
        cases hs'
  · have hcne : content ≠ [] := by
      intro h0
      rw [h0, strIndex_nil markerStart_ne_nil] at hs
      cases hs
    have hAs : strIndex markerStart (content.take s) = none :=
      strIndex_take_none markerStart_ne_nil hs (le_refl s)
    have hAe : strIndex markerEnd (content.take s) = none :=
      strIndex_take_none markerEnd_ne_nil he (le_of_lt hlt)
    have hT : ∀ j, ¬ occAt markerStart
        (content.drop (if content[e + markerEnd.length]? = some nlChar
          then e + markerEnd.length + 1 else e + markerEnd.length)) j := by
      intro j hj
      have hshift := occAt_drop_shift hj
      have hfit := occAt_fits markerStart_ne_nil hshift
      have hmSpos : 0 < markerStart.length := by decide
      have heq := hUq _ (by omega) hshift
      have hme : markerEnd.length = 20 := by decide
      split at heq <;> omega
    have h1 : upsertContent (blockOf pin1) content =
        content.take s ++ (blockOf pin1 ++ content.drop
          (if content[e + markerEnd.length]? = some nlChar
            then e + markerEnd.length + 1 else e + markerEnd.length)) := by
      rw [upsertContent_replace hcne hs he, List.append_assoc]
    have h2 := upsert_on_managed pin1 (blockOf pin2) (content.take s)
      (content.drop (if content[e + markerEnd.length]? = some nlChar
        then e + markerEnd.length + 1 else e + markerEnd.length)) hAs hAe hcln1
    rw [h1, h2]
    refine ⟨?_, fun h0 => absurd h0 hcne, ?_, ?_⟩
    · exact unique_start_in_managed pin2 _ _
        ((strIndex_eq_none_iff _ _).mp hAs) hT hstart2
    · intro s' e' hs' he'
      rw [hs] at hs'
      rw [he] at he'
      cases hs'
      cases he'
      rfl
    · intro _ hnone
      rw [hs] at hnone
      cases hnone

theorem writeEnvrc_second_body_wins_witness :
    endCleanB (blockOf pinAlice) ∧ startCleanB (blockOf pinBob) ∧
    (∃! j, occAt markerStart
      (upsertContent (blockOf pinBob)
        (upsertContent (blockOf pinAlice) "export MY_VAR=hello\n".toList)) j) :=
  ⟨by decide, by decide,
   (writeEnvrc_second_body_wins pinAlice pinBob "export MY_VAR=hello\n".toList
      (by decide) (by decide) (Or.inl ⟨by decide, by decide⟩)).1⟩

/-- **C2** counterexample: starting from a file holding a lone end-marker
line, two sequential upserts with different bodies leave TWO start markers
(at 21 and 101), refuting the for-every-initial-content claim. -/
theorem writeEnvrc_second_body_wins_cex :
    ¬ (∃! j, occAt markerStart
        (upsertContent (blockOf pinBob)
          (upsertContent (blockOf pinAlice) (markerEnd ++ [nlChar]))) j) := by
  rintro ⟨j, hj, huniq⟩
  have h1 := huniq 21 (by decide)
  have h2 := huniq 101 (by decide)
  omega

/-! ## Claim C4: remove after upsert -/

/-- `RemoveEnvrc` on content of the shape `A ++ (block ++ T)` with a clean
block and marker-free `A` removes exactly the block span and rewrites the
trimmed remainder (deleting the file when the remainder is empty). -/
theorem remove_on_managed (pin : Pin) (A T : List Char)
    (hAs : strIndex markerStart A = none)
    (hAe : strIndex markerEnd A = none)
    (hcln : endCleanB (blockOf pin)) :
    removeEnvrcFile (some (A ++ (blockOf pin ++ T))) =
      (if trimSpace (A ++ T) = [] then none
       else some (trimSpace (A ++ T) ++ [nlChar])) := by
  have hBne := blockOf_ne_nil pin
  have hBlen := length_blockOf pin
  have hhead : (blockOf pin ++ T).head? = some '#' := by
    rw [head_append_left T hBne, head_blockOf]
  have hS : strIndex markerStart (A ++ (blockOf pin ++ T)) = some A.length := by
    rw [strIndex_append_split markerStart_ne_nil hAs
      (fun k hk0 hk hand =>
        span_kill_head hhead markerStart_hash k hk0 hk hand.2)]
    rw [strIndex_zero_of_pre ((mS_pre_blockOf pin).trans (List.prefix_append _ _))]
    simp
  have hEBT : strIndex markerEnd (blockOf pin ++ T) =
      some ((blockOf pin).length - (markerEnd.length + 1)) :=
    strIndex_append_of_left T hcln
  have hE : strIndex markerEnd (A ++ (blockOf pin ++ T)) =
      some ((blockOf pin).length - (markerEnd.length + 1) + A.length) := by
    rw [strIndex_append_split markerEnd_ne_nil hAe
      (fun k hk0 hk hand =>
        span_kill_head hhead markerEnd_hash k hk0 hk hand.2)]
    rw [hEBT]
    rfl
  simp only [removeEnvrcFile]
  rw [hS, hE]
  dsimp only
  have hme : markerEnd.length = 20 := by decide
  have he1 : (blockOf pin).length - (markerEnd.length + 1) + A.length + markerEnd.length =
      A.length + ((blockOf pin).length - 1) := by omega
  rw [he1]
  have hgl : (A ++ (blockOf pin ++ T))[A.length + ((blockOf pin).length - 1)]? =
      some nlChar := by
    rw [List.getElem?_append_right (by omega : A.length ≤ A.length + ((blockOf pin).length - 1))]
    have hsub : A.length + ((blockOf pin).length - 1) - A.length =
        (blockOf pin).length - 1 := by omega
    rw [hsub]
    rw [List.getElem?_append,
      if_pos (by omega : (blockOf pin).length - 1 < (blockOf pin).length)]
    exact getElem_last_blockOf pin
  rw [if_pos hgl]
  have he2 : A.length + ((blockOf pin).length - 1) + 1 =
      A.length + (blockOf pin).length := by omega
  rw [he2]
  have htk : (A ++ (blockOf pin ++ T)).take A.length = A := by
    rw [List.take_append_of_le_length (le_refl _), List.take_length]
  have hdp : (A ++ (blockOf pin ++ T)).drop (A.length + (blockOf pin).length) = T := by
    rw [List.drop_append_eq_append_drop]
    rw [List.drop_eq_nil_of_le (by omega : A.length ≤ A.length + (blockOf pin).length)]
    have hsub : A.length + (blockOf pin).length - A.length = (blockOf pin).length := by
      omega
    rw [hsub, List.nil_append, List.drop_append_eq_append_drop,
      List.drop_eq_nil_of_le (le_refl _), Nat.sub_self, List.drop_zero, List.nil_append]
  rw [htk, hdp]

/-- **C4** (amended). For every pin whose rendered block is end-clean:
(1) on a previously nonexistent file, `RemoveEnvrc` after `WriteEnvrc`
deletes the file; (2) on a previously existing file whose content holds
neither marker, contains non-whitespace text, and equals its trimmed form
plus exactly one trailing newline, `RemoveEnvrc` after `WriteEnvrc`
restores exactly the pre-upsert content. (As stated — for every pin and
every nonempty pre-existing content — the claim is false: see the
counterexample.) -/
theorem remove_after_upsert (pin : Pin) (content : List Char)
    (hcln : endCleanB (blockOf pin)) :
    removeEnvrcFile (writeEnvrcFile pin none) = none ∧
    (strIndex markerStart content = none → strIndex markerEnd content = none →
      trimSpace content ≠ [] → trimSpace content ++ [nlChar] = content →
      removeEnvrcFile (writeEnvrcFile pin (some content)) = some content) := by
  constructor
  · have hw : writeEnvrcFile pin none = some (blockOf pin) := rfl
    rw [hw]
    have h := remove_on_managed pin [] [] (strIndex_nil markerStart_ne_nil)
      (strIndex_nil markerEnd_ne_nil) hcln
    simpa using h
  · intro hS hE htne hshape
    have hcne : content ≠ [] := by
      intro h0
      rw [h0] at hshape
      have := congrArg List.length hshape
      simp at this
    have hlast : content.getLast? = some nlChar := by
      rw [← hshape]
      exact List.getLast?_concat _
    have hw : writeEnvrcFile pin (some content) =
        some (content ++ (blockOf pin ++ [])) := by
      unfold writeEnvrcFile
      simp only [Option.getD_some]
      rw [upsertContent_append_fresh hcne hS]
      unfold withTrailingNl
      rw [if_pos hlast, List.append_nil]
    rw [hw]
    rw [remove_on_managed pin content [] hS hE hcln]
    rw [List.append_nil]
    rw [if_neg htne, hshape]

theorem remove_after_upsert_witness :
    endCleanB (blockOf pinAlice) ∧
    removeEnvrcFile (writeEnvrcFile pinAlice none) = none ∧
    removeEnvrcFile (writeEnvrcFile pinAlice (some "hello\n".toList)) =
      some "hello\n".toList :=
  ⟨by decide,
   (remove_after_upsert pinAlice "hello\n".toList (by decide)).1,
   (remove_after_upsert pinAlice "hello\n".toList (by decide)).2
     (by decide) (by decide) (by decide) (by decide)⟩

/-- **C4** counterexample: on the pre-existing nonempty content `hello`
(no trailing newline), remove-after-upsert yields `hello` plus a newline,
not the exact pre-upsert content; and for a pin whose account name contains
the end marker, remove-after-upsert on a missing file fails to delete the
file. -/
theorem remove_after_upsert_cex :
    ("hello".toList ≠ [] ∧
     removeEnvrcFile (writeEnvrcFile pinAlice (some "hello".toList)) ≠
       some "hello".toList) ∧
    removeEnvrcFile (writeEnvrcFile pinEvil none) ≠ none := by decide

/-! ## Pin registry (internal/config/pins.go) -/

/-- `config.PinRegistry`. -/
structure PinRegistry where
  pins : List Pin
deriving DecidableEq, Repr

/-- The replace-first-or-append loop of `AddPin` (pins.go lines 137–144). -/
def addPinList (p : Pin) : List Pin → List Pin
  | [] => [p]
  | q :: rest => if q.dir = p.dir then p :: rest else q :: addPinList p rest

/-- `AddPin` (pins.go lines 131–145). `filepath.Abs` is modeled by the
abstract `canon`; on canonicalization failure the directory is kept as-is,
exactly as in the source (`if err == nil { pin.Dir = absDir }`). -/
def addPin (canon : List Char → Option (List Char)) (r : PinRegistry)
    (pin : Pin) : PinRegistry :=
  let p := match canon pin.dir with
    | some a => { pin with dir := a }
    | none => pin
  ⟨addPinList p r.pins⟩

/-- `FindPin` (pins.go lines 117–128): `none` when canonicalization fails,
else the first pin whose stored directory equals the canonicalized input. -/
def findPin (canon : List Char → Option (List Char)) (r : PinRegistry)
    (dir : List Char) : Option Pin :=
  match canon dir with
  | none => none
  | some a => r.pins.find? (fun p => p.dir == a)

/-! ## Claim C5: repeat pin fully replaces the record -/

theorem addPinList_set (p : Pin) : ∀ (l : List Pin) (i : Nat) (hi : i < l.length),
    (l.get ⟨i, hi⟩).dir = p.dir →
    (∀ j (hj : j < l.length), j < i → (l.get ⟨j, hj⟩).dir ≠ p.dir) →
    addPinList p l = l.set i p := by
  intro l
  induction l with
  | nil =>
    intro i hi
    simp at hi
  | cons q rest ih =>
    intro i hi hm hf
    cases i with
    | zero =>
      simp only [List.get] at hm
      unfold addPinList
      rw [if_pos hm]
      rfl
    | succ i' =>
      have hq : q.dir ≠ p.dir := by
        have h0 := hf 0 (by simp) (by omega)
        simpa using h0
      unfold addPinList
      rw [if_neg hq]
      have hrec := ih i' (by simpa using hi) (by simpa using hm)
        (fun j hj hji => by
          have h1 := hf (j + 1) (by simpa using hj) (by omega)
          simpa using h1)
      rw [hrec]
      rfl

/-- **C5** (confirmed). A repeat pin on the same canonicalized directory
fully replaces the prior record in place: the stored entry becomes exactly
the new pin (every field overwritten, so omitted optional fields are
cleared), the registry keeps its length and insertion order, nothing is
appended, and no other entry is mutated. -/
theorem addPin_full_replace (canon : List Char → Option (List Char))
    (r : PinRegistry) (pin : Pin) (d : List Char) (i : Nat)
    (hi : i < r.pins.length)
    (hcanon : canon pin.dir = some d)
    (hmatch : (r.pins.get ⟨i, hi⟩).dir = d)
    (hfirst : ∀ j (hj : j < r.pins.length), j < i →
      (r.pins.get ⟨j, hj⟩).dir ≠ d) :
    addPin canon r pin = ⟨r.pins.set i { pin with dir := d }⟩ := by
  unfold addPin
  rw [hcanon]
  have h := addPinList_set { pin with dir := d } r.pins i hi hmatch hfirst
  simpa using h

def pinWorkEmail : Pin :=
  ⟨"bob-work".toList, "/work".toList, [], "bob@co.com".toList, [], []⟩

def pinWorkNoEmail : Pin :=
  ⟨"bob-work".toList, "/work".toList, [], [], [], []⟩

def pinHome : Pin := ⟨"alice".toList, "/home".toList, [], [], [], []⟩

theorem addPin_full_replace_witness :
    addPin some ⟨[pinWorkEmail, pinHome]⟩ pinWorkNoEmail =
      ⟨[pinWorkEmail, pinHome].set 0 { pinWorkNoEmail with dir := "/work".toList }⟩ :=
  addPin_full_replace some ⟨[pinWorkEmail, pinHome]⟩ pinWorkNoEmail
    "/work".toList 0 (by decide) (by decide) (by decide) (by decide)

/-! ## Claim C6: exact-directory matching only -/

/-- `b` is strictly below `a` in the directory tree. -/
def isStrictAncestorOf (a b : List Char) : Prop :=
  ∃ rest, b = a ++ '/' :: rest

/-- **C6** (confirmed). `FindPin` matches only on exact equality of the
canonicalized directory: a directory that canonicalizes to itself, is a
strict ancestor or strict descendant of some pinned directory, and equals
no pinned directory, finds nothing. -/
theorem findPin_no_ancestor_descendant (canon : List Char → Option (List Char))
    (r : PinRegistry) (d : List Char)
    (hcanon : canon d = some d)
    (hrel : ∃ p ∈ r.pins, isStrictAncestorOf d p.dir ∨ isStrictAncestorOf p.dir d)
    (hne : ∀ p ∈ r.pins, p.dir ≠ d) :
    findPin canon r d = none := by
  unfold findPin
  rw [hcanon]
  apply List.find?_eq_none.mpr
  intro p hp
  have h := hne p hp
  simpa using h

theorem findPin_no_ancestor_descendant_witness :
    findPin some ⟨[pinWorkEmail]⟩ "/work/sub".toList = none :=
  findPin_no_ancestor_descendant some ⟨[pinWorkEmail]⟩ "/work/sub".toList rfl
    ⟨pinWorkEmail, by decide, Or.inr ⟨"sub".toList, by decide⟩⟩ (by decide)

/-! ## Claim C7: shell-escaping contract and round-trip -/

/-- Modelled from the spec: the receiving shell's "standard shell quoting
rules" for a single word (the shell itself is outside the repository).
State `false` is unquoted: a backslash escapes the next character, a single
quote opens a literal span, and unquoted whitespace breaks the word (so a
multi-word or unterminated token fails to parse as one word). State `true`
is inside single quotes: every character is literal up to the closing
quote. -/
def parseLoop : Bool → List Char → Option (List Char)
  | false, [] => some []
  | true, [] => none
  | false, c :: rest =>
    if c = '\'' then parseLoop true rest
    else if c = '\\' then
      match rest with
      | [] => none
      | d :: rest' => (parseLoop false rest').map (d :: ·)
    else if c = ' ' ∨ c = '\t' ∨ c = '\n' then none
    else (parseLoop false rest).map (c :: ·)
  | true, c :: rest =>
    if c = '\'' then parseLoop false rest
    else (parseLoop true rest).map (c :: ·)

/-- Modelled from the spec: parse one shell word. -/
def shellParseWord (s : List Char) : Option (List Char) := parseLoop false s

theorem parseLoop_true_quote (rest : List Char) :
    parseLoop true ('\'' :: rest) = parseLoop false rest := by
  rw [parseLoop]
  simp

theorem parseLoop_false_quote (rest : List Char) :
    parseLoop false ('\'' :: rest) = parseLoop true rest := by
  rw [parseLoop.eq_def]
  simp

theorem parseLoop_true_other {c : Char} (hc : c ≠ '\'') (rest : List Char) :
    parseLoop true (c :: rest) = (parseLoop true rest).map (c :: ·) := by
  rw [parseLoop, if_neg hc]

theorem parseLoop_bslash (d : Char) (rest : List Char) :
    parseLoop false ('\\' :: d :: rest) = (parseLoop false rest).map (d :: ·) := by
  rw [parseLoop.eq_def]
  simp

theorem parseLoop_false_other {c : Char} (h1 : c ≠ '\'') (h2 : c ≠ '\\')
    (h3 : ¬ (c = ' ' ∨ c = '\t' ∨ c = '\n')) (rest : List Char) :
    parseLoop false (c :: rest) = (parseLoop false rest).map (c :: ·) := by
  rw [parseLoop.eq_def]
  dsimp only
  rw [if_neg h1, if_neg h2, if_neg h3]

theorem parse_safe (s : List Char) (hs : ∀ c ∈ s, isSafeChar c = true) :
    parseLoop false s = some s := by
  induction s with
  | nil => rfl
  | cons c rest ih =>
    have hc : isSafeChar c = true := hs c (by simp)
    have h1 : c ≠ '\'' := fun h => by rw [h] at hc; exact absurd hc (by decide)
    have h2 : c ≠ '\\' := fun h => by rw [h] at hc; exact absurd hc (by decide)
    have h3 : ¬ (c = ' ' ∨ c = '\t' ∨ c = '\n') := by
      rintro (h | h | h) <;> (rw [h] at hc; exact absurd hc (by decide))
    rw [parseLoop_false_other h1 h2 h3, ih (fun d hd => hs d (by simp [hd]))]
    rfl

theorem parse_quoted (s : List Char) :
    parseLoop true (sqEscape s ++ ['\'']) = some s := by
  induction s with
  | nil => rfl
  | cons c rest ih =>
    by_cases hc : c = '\''
    · subst hc
      have hsq : sqEscape ('\'' :: rest) ++ ['\''] =
          '\'' :: '\\' :: '\'' :: '\'' :: (sqEscape rest ++ ['\'']) := by
        rw [sqEscape, if_pos rfl]
        rfl
      rw [hsq, parseLoop_true_quote, parseLoop_bslash, parseLoop_false_quote, ih]
      rfl
    · have hsq : sqEscape (c :: rest) ++ ['\''] =
          c :: (sqEscape rest ++ ['\'']) := by
        rw [sqEscape, if_neg hc]
        rfl
      rw [hsq, parseLoop_true_other hc, ih]
      rfl

/-- **C7** (confirmed). `shellQuote` emits a nonempty all-safe value bare,
wraps every other value — the empty string included — in single quotes
with each embedded quote escaped as the four characters
quote-backslash-quote-quote, and parsing any emitted token under the
standard shell quoting rules reconstructs exactly the original value. -/
theorem shellQuote_contract :
    (∀ s : List Char, s ≠ [] → s.all isSafeChar = true → shellQuote s = s) ∧
    (∀ s : List Char, s = [] ∨ s.all isSafeChar = false →
      shellQuote s = ['\''] ++ sqEscape s ++ ['\'']) ∧
    (∀ s : List Char, shellParseWord (shellQuote s) = some s) := by
  refine ⟨?_, ?_, ?_⟩
  · intro s h1 h2
    unfold shellQuote
    rw [if_pos ⟨h2, h1⟩]
  · intro s h
    unfold shellQuote
    rw [if_neg]
    rintro ⟨hall, hne⟩
    rcases h with h | h
    · exact hne h
    · rw [h] at hall
      cases hall
  · intro s
    unfold shellQuote shellParseWord
    split
    · next hcond =>
      exact parse_safe s (List.all_eq_true.mp hcond.1)
    · have hq : (['\''] ++ sqEscape s ++ ['\''] : List Char) =
          '\'' :: (sqEscape s ++ ['\'']) := by
        simp
      rw [hq, parseLoop_false_quote, parse_quoted]

theorem shellQuote_contract_witness :
    shellQuote "alice".toList = "alice".toList ∧
    shellQuote "a b".toList = ['\''] ++ sqEscape "a b".toList ++ ['\''] ∧
    shellParseWord (shellQuote "bob's work".toList) = some "bob's work".toList :=
  ⟨shellQuote_contract.1 "alice".toList (by decide) (by decide),
   shellQuote_contract.2.1 "a b".toList (Or.inr (by decide)),
   shellQuote_contract.2.2 "bob's work".toList⟩

/-! ## Claim C8: the per-prompt state machine (src/unnamed/part_003) -/

/-- Observable effect of one `_gh_autoprofile_hook` invocation. -/
inductive HookEffect
  | noop
  | createWrappers
  | removeWrappers
deriving DecidableEq, Repr

/-- Hook shell state: `lastUser` mirrors `_gh_autoprofile_last_user`,
`lastHasToken` mirrors `_gh_autoprofile_last_has_token` (the string ""
or "1"), `wrappersDefined` whether the gh/git functions are defined. -/
structure HookState where
  lastUser : List Char
  lastHasToken : List Char
  wrappersDefined : Bool
deriving DecidableEq, Repr

/-- State after sourcing the hook (part_003 lines 19–20). -/
def initialHookState : HookState := ⟨[], [], false⟩

def oneStr : List Char := "1".toList

/-- One `_gh_autoprofile_hook` run (part_003 lines 22–79), observing
`user = GH_AUTOPROFILE_USER` (empty when absent) and
`tokenPresent = GH_TOKEN is set and nonempty`. -/
def hookStep (st : HookState) (user : List Char) (tokenPresent : Bool) :
    HookState × HookEffect :=
  let hasToken : List Char := if tokenPresent then oneStr else []
  if user = st.lastUser ∧ hasToken = st.lastHasToken then (st, .noop)
  else if user ≠ [] ∧ ¬ tokenPresent then
    (⟨user, [], true⟩, .createWrappers)
  else if user ≠ [] ∧ tokenPresent then
    (⟨user, oneStr, false⟩, .removeWrappers)
  else (⟨[], [], false⟩, .removeWrappers)

/-- Run a sequence of per-prompt signals, collecting the effects. -/
def hookRun (st : HookState) : List (List Char × Bool) → HookState × List HookEffect
  | [] => (st, [])
  | (u, t) :: rest =>
    let step := hookStep st u t
    let tail := hookRun step.1 rest
    (tail.1, step.2 :: tail.2)

/-- The signal sequence of the spec's Scenario C. -/
def scenarioC : List (List Char × Bool) :=
  [([], false), ("alice".toList, false), ("alice".toList, false),
   ("alice".toList, true), ([], false)]

/-- **C8** (confirmed). The hook is a no-op whenever the observed
`(marker, token-present)` pair equals the memoized pair, and Scenario C
from the initial state produces exactly three effective transitions:
wrappers created on the second signal and removed on the fourth and the
fifth. -/
theorem hook_transitions :
    (∀ st user tokenPresent,
      user = st.lastUser →
      (if tokenPresent then oneStr else ([] : List Char)) = st.lastHasToken →
      hookStep st user tokenPresent = (st, HookEffect.noop)) ∧
    (hookRun initialHookState scenarioC).2 =
      [HookEffect.noop, HookEffect.createWrappers, HookEffect.noop,
       HookEffect.removeWrappers, HookEffect.removeWrappers] ∧
    ((hookRun initialHookState scenarioC).2.filter
      (fun e => e != HookEffect.noop)).length = 3 := by
  refine ⟨?_, by decide, by decide⟩
  intro st user tokenPresent h1 h2
  unfold hookStep
  rw [if_pos ⟨h1, h2⟩]

theorem hook_transitions_witness :
    hookStep initialHookState [] false = (initialHookState, HookEffect.noop) :=
  hook_transitions.1 initialHookState [] false rfl rfl

/-! ## Claim C9: wrapper bindings (part_003 lines 36–58) -/

/-- Observable outcome of invoking one wrapper binding: the real command
run, its arguments, the GH_TOKEN in the spawned child's environment, the
parent shell's GH_TOKEN afterwards, and whether a warning was printed. -/
structure WrapperOutcome where
  cmd : List Char
  args : List (List Char)
  childGhToken : Option (List Char)
  parentGhToken : Option (List Char)
  warned : Bool
deriving DecidableEq, Repr

/-- The `gh()` wrapper: `query` is the output of
`command gh auth token --user $GH_AUTOPROFILE_USER` (`none` when the query
fails or prints nothing). On success the token is passed only in the child
process's environment (`GH_TOKEN="$_token" command gh "$@"`); on failure a
warning goes to stderr and the command runs unmodified. -/
def ghWrapper (query : Option (List Char)) (parentGhToken : Option (List Char))
    (args : List (List Char)) : WrapperOutcome :=
  match query with
  | some tok => ⟨"gh".toList, args, some tok, parentGhToken, false⟩
  | none => ⟨"gh".toList, args, parentGhToken, parentGhToken, true⟩

/-- The `git()` wrapper: like `gh()` but the fallback branch has no
warning `echo`. -/
def gitWrapper (query : Option (List Char)) (parentGhToken : Option (List Char))
    (args : List (List Char)) : WrapperOutcome :=
  match query with
  | some tok => ⟨"git".toList, args, some tok, parentGhToken, false⟩
  | none => ⟨"git".toList, args, parentGhToken, parentGhToken, false⟩

/-- **C9** (amended). Both bindings always run the underlying command with
the user's arguments unchanged and never touch the parent shell's
environment. On query failure both fall back with the child environment
unmodified, the `gh` binding emitting a warning while the `git` binding
falls back silently; on success the token reaches only the spawned child's
environment. (As stated — each of the two bindings warns — the claim is
false: see the counterexample.) -/
theorem wrapper_fallback (query : Option (List Char))
    (parent : Option (List Char)) (args : List (List Char)) :
    ((ghWrapper query parent args).cmd = "gh".toList ∧
     (gitWrapper query parent args).cmd = "git".toList ∧
     (ghWrapper query parent args).args = args ∧
     (gitWrapper query parent args).args = args ∧
     (ghWrapper query parent args).parentGhToken = parent ∧
     (gitWrapper query parent args).parentGhToken = parent) ∧
    (query = none →
      (ghWrapper query parent args).childGhToken = parent ∧
      (ghWrapper query parent args).warned = true ∧
      (gitWrapper query parent args).childGhToken = parent ∧
      (gitWrapper query parent args).warned = false) ∧
    (∀ tok, query = some tok →
      (ghWrapper query parent args).childGhToken = some tok ∧
      (gitWrapper query parent args).childGhToken = some tok) := by
  cases query <;> simp [ghWrapper, gitWrapper]

theorem wrapper_fallback_witness :
    (ghWrapper none none ["pr".toList]).warned = true ∧
    (gitWrapper none (some "t".toList) ["status".toList]).parentGhToken =
      some "t".toList :=
  ⟨((wrapper_fallback none none ["pr".toList]).2.1 rfl).2.1,
   (wrapper_fallback none (some "t".toList) ["status".toList]).1.2.2.2.2.2⟩

/-- **C9** counterexample: on a failed token query the `git` binding does
not emit a warning, so the claim that each of the two bindings warns on
failure is false. -/
theorem wrapper_fallback_cex :
    ¬ ((gitWrapper none none ["status".toList]).warned = true) := by decide

/-! ## Claim C10: gap-free positional argument prefix -/

/-- **C10** (confirmed). The rendered argument list is always a gap-free
prefix of (user, email, name, ssh key): with `gitEmail` empty the name and
key are omitted even when set, and with `gitName` empty the key is
omitted. -/
theorem argsOf_gap_free (pin : Pin) :
    (pin.gitEmail = [] → argsOf pin = [shellQuote pin.user]) ∧
    (pin.gitEmail ≠ [] → pin.gitName = [] →
      argsOf pin = [shellQuote pin.user, shellQuote pin.gitEmail]) ∧
    (pin.gitEmail ≠ [] → pin.gitName ≠ [] → pin.sshKey = [] →
      argsOf pin =
        [shellQuote pin.user, shellQuote pin.gitEmail, shellQuote pin.gitName]) ∧
    (pin.gitEmail ≠ [] → pin.gitName ≠ [] → pin.sshKey ≠ [] →
      argsOf pin = [shellQuote pin.user, shellQuote pin.gitEmail,
        shellQuote pin.gitName, shellQuote pin.sshKey]) := by
  unfold argsOf
  refine ⟨?_, ?_, ?_, ?_⟩ <;> intros <;> simp [*]

/-- A pin with `gitEmail` unset but `gitName` and `sshKey` set. -/
def pinNameNoEmail : Pin :=
  ⟨"carol".toList, "/c".toList, [], [], "Carol X".toList, "/k/id".toList⟩

theorem argsOf_gap_free_witness :
    argsOf pinNameNoEmail = [shellQuote pinNameNoEmail.user] :=
  (argsOf_gap_free pinNameNoEmail).1 (by decide)

end Autoprofile
